import Mathlib

/-!
Shallow embedding of the hand-over-hand (lock-coupling) linked-list
traversal of this repository.  The two source files
`src/concurrent_set/src/main.rs` and `src/atomic_list/src/main.rs`
declare the same `Node` struct and byte-for-byte identical `find`
functions (they differ only in comments and in how `main` mutates the
returned guards), so one embedding covers both.

Modelling conventions:
- Rust `Node { val: i32, next: Option<Arc<Mutex<Node>>> }` becomes the
  inductive `Node` below; the `Option` in `next` is folded into the two
  constructors (`last` for `next == None`, `cons` for `next == Some _`),
  and `Node.next` recovers the `Option` view.  Keys are `Int`; only
  comparisons and equalities of keys occur, so i32 overflow is
  irrelevant.
- The `unwrap()` panic on a missing `next` link is modelled by an
  `Option` result of `find`: `none` means the call panics.
- The lock/unlock behaviour of a call to `find` is modelled separately
  as an explicit event trace (`traceFind`), with nodes named by their
  position from the head; a consistency lemma ties the trace's
  completion flag to `find` itself.
-/

/-- Embedding of the Rust struct
`Node { val: i32, next: Option<Arc<Mutex<Node>>> }`.
`last v` is a node whose `next` is `None`; `cons v n` is a node whose
`next` is `Some n`.  `Node.val` and `Node.next` below are the field
accessors. -/
inductive Node : Type where
  | last (val : Int) : Node
  | cons (val : Int) (next : Node) : Node
deriving DecidableEq

/-- Field accessor for `val`. -/
def Node.val : Node → Int
  | .last v => v
  | .cons v _ => v

/-- Field accessor for `next`, giving back the Rust `Option` view of the
link. -/
def Node.next : Node → Option Node
  | .last _ => none
  | .cons _ n => some n

/-- Loop of the Rust `find` (the `loop { ... }` block).  On entry the
argument is the node the Rust code calls `curr`; the body releases the
old `prev`, sets `prev := curr`, reads `prev.next` — panicking (`none`)
when the link is `None`, which `unwrap` does — locks the next node as
the new `curr`, and breaks returning `(prev, curr)` exactly when the
newly locked node's `val` equals the hard-coded `4`. -/
def findLoop : Node → Option (Node × Node)
  | .last _ => none
  | .cons v c2 => if c2.val = 4 then some (.cons v c2, c2) else findLoop c2

/-- Embedding of the Rust `find`: lock `head` as `prev`, read
`prev.next` — `unwrap` panics (`none`) when it is `None` — lock it as
`curr`, then run the loop.  The returned pair is the pair of nodes whose
guards Rust returns; note the Rust function takes no search key — the
target value `4` is hard-coded in the loop. -/
def find (head : Node) : Option (Node × Node) :=
  match head.next with
  | none => none
  | some c => findLoop c

/-- Chain with head value `v` followed by the values `rest`, used to
quantify over list states. -/
def ofVals : Int → List Int → Node
  | v, [] => .last v
  | v, w :: rest => .cons v (ofVals w rest)

/-- Values along a chain, head first. -/
def Node.toVals : Node → List Int
  | .last v => [v]
  | .cons v n => v :: n.toVals

/-- Node `fourth` from `main`: `Node { val: 4, next: None }`. -/
def fourth : Node := .last 4

/-- Node `third` from `main`: val 3, linking to `fourth`. -/
def third : Node := .cons 3 fourth

/-- Node `snd` from `main`: val 2, linking to `third`. -/
def snd : Node := .cons 2 third

/-- Node `fst` from `main`: val 1, linking to `snd`; this is the head
passed to `find`. -/
def fst : Node := .cons 1 snd

/-- Written from the spec's wording (section 4.1, steps 2–3), for
comparison with the code's `find`: `pred` and `curr` advance while
`curr.key < key`; the search key is a parameter.  Returns `none` when
the walk would need a successor that does not exist. -/
def findSpecLoop (key : Int) (pred curr : Node) : Option (Node × Node) :=
  match curr with
  | .last v => if v < key then none else some (pred, .last v)
  | .cons v c2 =>
      if v < key then findSpecLoop key (.cons v c2) c2 else some (pred, .cons v c2)

/-- Written from the spec's wording (section 4.1): lock `head` as
`pred`, lock `pred.next` as `curr`, then advance while
`curr.key < key`, returning `(pred, curr)`. -/
def findSpec (key : Int) (head : Node) : Option (Node × Node) :=
  match head.next with
  | none => none
  | some c => findSpecLoop key head c

/-- Replaces a node's `val` and keeps its `next`; used to state that a
particular node's value is never inspected by `find`. -/
def setVal (v : Int) : Node → Node
  | .last _ => .last v
  | .cons _ n => .cons v n

lemma ofVals_val (v : Int) (rest : List Int) : (ofVals v rest).val = v := by
  cases rest <;> rfl

lemma findLoop_some : ∀ c p q : Node, findLoop c = some (p, q) →
    q.val = 4 ∧ p.next = some q := by
  intro c
  induction c with
  | last v => intro p q h; simp [findLoop] at h
  | cons v c2 ih =>
    intro p q h
    by_cases h4 : c2.val = 4
    · simp only [findLoop, h4, if_pos, Option.some.injEq, Prod.mk.injEq] at h
      obtain ⟨hp, hq⟩ := h
      subst hp; subst hq
      exact ⟨h4, rfl⟩
    · simp only [findLoop, h4, if_false, if_neg, not_false_iff] at h
      exact ih p q h

lemma findLoop_none_of_no4 : ∀ (rest : List Int) (w : Int),
    (∀ x ∈ rest, x ≠ 4) → findLoop (ofVals w rest) = none := by
  intro rest
  induction rest with
  | nil => intro w _; rfl
  | cons u rest ih =>
    intro w h
    have hu : u ≠ 4 := h u (List.mem_cons_self u rest)
    have hval : (ofVals u rest).val = u := ofVals_val u rest
    simp only [ofVals, findLoop, hval, hu, if_neg, not_false_iff]
    exact ih u (fun x hx => h x (List.mem_cons_of_mem u hx))

/-- C2: on the list `[1, 2, 3, 4]` built in `main`, `find` returns the
pair whose predecessor node has key 3 and whose current node has key
4. -/
theorem find_main_list :
    (find fst).map (fun pc => (pc.1.val, pc.2.val)) = some (3, 4) := by decide

/-- C1 as stated is false: on the list `[1, 4, 4]` the code's `find`
returns a pair whose predecessor node has val 4, so with search key 4
the required bound `pred.key < 4` fails (the code never compares the
node immediately after the head, so it walks past the first 4). -/
theorem find_bracketing_cex :
    ¬ (∀ p c : Node, find (ofVals 1 [4, 4]) = some (p, c) → p.val < 4) := by
  intro h
  exact absurd (h (.cons 4 (.last 4)) (.last 4) (by decide)) (by decide)

/-- C1 (amended): `find` takes no search key — the target value 4 is
hard-coded — and it can panic instead of returning; whenever it does
return a pair `(pred, curr)`, the upper half of the bracketing holds
with `k = 4`: `4 ≤ curr.val` and `curr.val ≤ 4` (that is,
`curr.val = 4`).  The lower bound `pred.val < 4` does not hold in
general. -/
theorem find_returns_key4 (n p c : Node) (h : find n = some (p, c)) :
    4 ≤ c.val ∧ c.val ≤ 4 := by
  cases n with
  | last v => simp [find, Node.next] at h
  | cons v c0 =>
    have h4 := (findLoop_some c0 p c (by simpa [find, Node.next] using h)).1
    omega

/-- Witness: applying the amended C1 to the list from `main`. -/
theorem find_returns_key4_witness : (4 : Int) ≤ fourth.val ∧ fourth.val ≤ 4 :=
  find_returns_key4 fst third fourth (by decide)

/-- C3 as stated is false: on the list `[1, 4, 4]` the code's `find`
disagrees with the spec's algorithm (instantiated at key 4) — the spec
stops at the first node after head (pred val 1, curr val 4), while the
code advances past it without comparing it and returns pred val 4,
curr val 4. -/
theorem find_vs_spec_cex :
    (find (ofVals 1 [4, 4])).map (fun pc => (pc.1.val, pc.2.val)) ≠
      (findSpec 4 (ofVals 1 [4, 4])).map (fun pc => (pc.1.val, pc.2.val)) := by
  decide

/-- C3 (amended): `find` deviates from the spec's algorithm — it
advances once unconditionally before its first comparison, so the node
immediately after the head is never compared against the target: its
value (and the head's value) has no effect on the `curr` node `find`
returns, nor on whether `find` returns at all. -/
theorem find_skips_first_node (a b v w : Int) (n : Node) :
    (find (.cons a (setVal v n))).map Prod.snd =
      (find (.cons b (setVal w n))).map Prod.snd := by
  cases n with
  | last u => rfl
  | cons u m =>
    show (findLoop (.cons v m)).map Prod.snd = (findLoop (.cons w m)).map Prod.snd
    by_cases h : m.val = 4
    · simp [findLoop, h]
    · simp [findLoop, h]

/-- C7 as stated is false: the list built in `main` has no sentinels —
its head carries the ordinary key 1 (not smaller than every insertable
key, e.g. not smaller than 0), and `head.next` is a node that itself
has a successor, hence not the tail. -/
theorem main_no_sentinels_cex :
    fst.val = 1 ∧ ¬ (fst.val < 0) ∧ ((fst.next).bind Node.next).isSome = true := by
  decide

/-- C7 (amended): `main` builds a plain four-node list with keys
`[1, 2, 3, 4]` and no sentinel nodes: the head carries the ordinary
key 1, `head.next` is the key-2 node, and the final node carries key 4
with `next == None`. -/
theorem main_list_structure :
    fst.toVals = [1, 2, 3, 4] ∧ (fst.next).map Node.val = some 2 ∧
      fourth.next = none ∧ fourth.val = 4 := by
  decide

/-- C10: `find` is partial — on any list in which no node at distance
two or more from the head holds the value 4, the traversal reaches a
node whose `next` is `None` and panics on the `unwrap` (modelled by the
`none` result). -/
theorem find_panics_without_4 (v : Int) (rest : List Int)
    (h : ∀ x ∈ rest.drop 1, x ≠ 4) : find (ofVals v rest) = none := by
  cases rest with
  | nil => rfl
  | cons w rest2 =>
    show findLoop (ofVals w rest2) = none
    exact findLoop_none_of_no4 rest2 w (by simpa using h)

/-- Witness: the list `[1, 4]`, where 4 is the node immediately after
the head and has no successor, makes `find` panic. -/
theorem find_panics_without_4_witness : find (ofVals 1 [4]) = none :=
  find_panics_without_4 1 [4] (by decide)

/-- Lock events of a traversal; nodes are named by their distance from
the head (head = 0). -/
inductive Ev : Type where
  | lock (i : Nat) : Ev
  | unlock (i : Nat) : Ev
deriving DecidableEq

/-- Lock events of one iteration onward of the Rust `find` loop.  `p` is
the position of `prev` (so `curr` sits at `p + 1`) and `rest` holds the
values of the nodes strictly after `curr`.  The body first releases
`prev` (`ManuallyDrop::into_inner(prev)`), then reads the new `prev`'s
`next` — on `None` the `unwrap` panics, flag `false` — locks the node at
`p + 2`, and stops (flag `true`) iff its value is 4. -/
def traceLoop : Nat → List Int → List Ev × Bool
  | p, [] => ([Ev.unlock p], false)
  | p, v :: rest =>
      if v = 4 then ([Ev.unlock p, Ev.lock (p + 2)], true)
      else
        let r := traceLoop (p + 1) rest
        (Ev.unlock p :: Ev.lock (p + 2) :: r.1, r.2)

/-- Lock events of a whole call `find` on a list with the given values
(head first): lock the head (position 0), lock its successor — a
one-node list panics on the `unwrap` before that — then run the loop
with `prev` at position 0.  The flag records whether the call returns
(`true`) or panics (`false`). -/
def traceFind (vals : List Int) : List Ev × Bool :=
  match vals with
  | [] => ([], false)
  | [_] => ([Ev.lock 0], false)
  | _ :: _ :: rest =>
      let r := traceLoop 0 rest
      (Ev.lock 0 :: Ev.lock 1 :: r.1, r.2)

/-- Removes the first occurrence of `i` from a list of positions. -/
def removeFirst (i : Nat) : List Nat → List Nat
  | [] => []
  | x :: xs => if x = i then xs else x :: removeFirst i xs

/-- Effect of one event on the multiset of held locks (represented as a
list, most recently acquired first). -/
def applyEv (s : List Nat) : Ev → List Nat
  | .lock i => i :: s
  | .unlock i => removeFirst i s

/-- All intermediate held-lock states while running the events from the
given start state; the start state itself is included first. -/
def states (s : List Nat) : List Ev → List (List Nat)
  | [] => [s]
  | e :: t => s :: states (applyEv s e) t

/-- Positions locked by a list of events, in order of acquisition. -/
def locksOf (t : List Ev) : List Nat :=
  t.filterMap (fun e => match e with | .lock i => some i | .unlock _ => none)

lemma toVals_cons_tail (n : Node) : n.toVals = n.val :: n.toVals.tail := by
  cases n <;> rfl

lemma traceLoop_flag (c : Node) : ∀ p : Nat,
    (traceLoop p c.toVals.tail).2 = (findLoop c).isSome := by
  induction c with
  | last v => intro p; rfl
  | cons v c2 ih =>
    intro p
    have h2 : (Node.cons v c2).toVals.tail = c2.val :: c2.toVals.tail := by
      cases c2 <;> rfl
    rw [h2]
    by_cases h4 : c2.val = 4
    · simp [traceLoop, findLoop, h4]
    · simp only [traceLoop, findLoop, h4, if_neg, not_false_iff, if_false]
      exact ih (p + 1)

/-- Consistency of the trace model with the embedded `find`: the trace
of a call completes exactly when `find` returns instead of panicking. -/
lemma traceFind_consistent (n : Node) :
    (traceFind n.toVals).2 = (find n).isSome := by
  cases n with
  | last v => rfl
  | cons v c =>
    have h1 : (Node.cons v c).toVals = v :: c.val :: c.toVals.tail := by
      cases c <;> rfl
    rw [h1]
    show (traceLoop 0 c.toVals.tail).2 = (findLoop c).isSome
    exact traceLoop_flag c 0

lemma removeFirst_pair (p : Nat) : removeFirst p [p + 1, p] = [p + 1] := by
  simp [removeFirst, Nat.succ_ne_self]

lemma traceLoop_unlock_ordered : ∀ (rest : List Int) (p k j : Nat),
    (traceLoop p rest).1[k]? = some (Ev.unlock j) →
    (k = 0 ∧ j = p) ∨
      ∃ m, m < k ∧ (traceLoop p rest).1[m]? = some (Ev.lock (j + 1)) := by
  intro rest
  induction rest with
  | nil =>
    intro p k j h
    cases k with
    | zero =>
      simp [traceLoop] at h
      exact Or.inl ⟨rfl, by omega⟩
    | succ k => simp [traceLoop] at h
  | cons u rest ih =>
    intro p k j h
    by_cases h4 : u = 4
    · cases k with
      | zero =>
        simp [traceLoop, h4] at h
        exact Or.inl ⟨rfl, by omega⟩
      | succ k =>
        cases k with
        | zero => simp [traceLoop, h4] at h
        | succ k => simp [traceLoop, h4] at h
    · cases k with
      | zero =>
        simp [traceLoop, h4] at h
        exact Or.inl ⟨rfl, by omega⟩
      | succ k =>
        cases k with
        | zero => simp [traceLoop, h4] at h
        | succ k =>
          have h2 : (traceLoop (p + 1) rest).1[k]? = some (Ev.unlock j) := by
            simpa [traceLoop, h4] using h
          rcases ih (p + 1) k j h2 with ⟨hk, hj⟩ | ⟨m, hm, hT⟩
          · subst hj
            exact Or.inr ⟨1, by omega, by simp [traceLoop, h4]⟩
          · exact Or.inr ⟨m + 2, by omega, by simpa [traceLoop, h4] using hT⟩

/-- C4: on every return from `find` the predecessor's `next` field is
exactly the current node, and the traversal never releases the lock on
a node before the lock on its successor — the node about to be crossed
to — has been acquired: every `unlock` of position `j` in the event
trace is preceded by a `lock` of position `j + 1`. -/
theorem find_hand_over_hand :
    (∀ n p c : Node, find n = some (p, c) → p.next = some c) ∧
    (∀ (vals : List Int) (k j : Nat),
      (traceFind vals).1[k]? = some (Ev.unlock j) →
      ∃ m, m < k ∧ (traceFind vals).1[m]? = some (Ev.lock (j + 1))) := by
  constructor
  · intro n p c h
    cases n with
    | last v => simp [find, Node.next] at h
    | cons v c0 => exact (findLoop_some c0 p c (by simpa [find, Node.next] using h)).2
  · intro vals k j h
    rcases vals with _ | ⟨v, _ | ⟨w, rest⟩⟩
    · simp [traceFind] at h
    · cases k with
      | zero => simp [traceFind] at h
      | succ k => simp [traceFind] at h
    · cases k with
      | zero => simp [traceFind] at h
      | succ k =>
        cases k with
        | zero => simp [traceFind] at h
        | succ k =>
          have h2 : (traceLoop 0 rest).1[k]? = some (Ev.unlock j) := by
            simpa [traceFind] using h
          rcases traceLoop_unlock_ordered rest 0 k j h2 with ⟨hk, hj⟩ | ⟨m, hm, hT⟩
          · subst hj
            exact ⟨1, by omega, by simp [traceFind]⟩
          · exact ⟨m + 2, by omega, by simpa [traceFind] using hT⟩

/-- Witness for C4: on the list from `main`, the returned pair is
`(third, fourth)` with `third.next = some fourth`, and the unlock of the
head (trace index 2) is preceded by the lock of position 1. -/
theorem find_hand_over_hand_witness :
    third.next = some fourth ∧
      ∃ m, m < 2 ∧ (traceFind [1, 2, 3, 4]).1[m]? = some (Ev.lock 1) :=
  ⟨find_hand_over_hand.1 fst third fourth (by decide),
   find_hand_over_hand.2 [1, 2, 3, 4] 2 0 (by decide)⟩

/-- Held-lock states reachable during a traversal: a single lock or two
locks on adjacent positions (leading lock acquired last). -/
def HeldOk (s : List Nat) : Prop := (∃ j, s = [j]) ∨ ∃ j, s = [j + 1, j]

lemma traceLoop_states_ok : ∀ (rest : List Int) (p : Nat) (s : List Nat),
    s ∈ states [p + 1, p] (traceLoop p rest).1 → HeldOk s := by
  intro rest
  induction rest with
  | nil =>
    intro p s hs
    have he : states [p + 1, p] (traceLoop p []).1 = [[p + 1, p], [p + 1]] := by
      simp [traceLoop, states, applyEv, removeFirst_pair]
    rw [he] at hs
    rcases List.mem_cons.mp hs with h | h
    · exact Or.inr ⟨p, h⟩
    · exact Or.inl ⟨p + 1, by simpa using h⟩
  | cons u rest ih =>
    intro p s hs
    by_cases h4 : u = 4
    · have he : states [p + 1, p] (traceLoop p (u :: rest)).1
          = [[p + 1, p], [p + 1], [p + 2, p + 1]] := by
        simp [traceLoop, h4, states, applyEv, removeFirst_pair]
      rw [he] at hs
      rcases List.mem_cons.mp hs with h | h
      · exact Or.inr ⟨p, h⟩
      rcases List.mem_cons.mp h with h | h
      · exact Or.inl ⟨p + 1, h⟩
      · exact Or.inr ⟨p + 1, by simpa using h⟩
    · have he : states [p + 1, p] (traceLoop p (u :: rest)).1
          = [p + 1, p] :: [p + 1] :: states [p + 2, p + 1] (traceLoop (p + 1) rest).1 := by
        simp [traceLoop, h4, states, applyEv, removeFirst_pair]
      rw [he] at hs
      rcases List.mem_cons.mp hs with h | h
      · exact Or.inr ⟨p, h⟩
      rcases List.mem_cons.mp h with h | h
      · exact Or.inl ⟨p + 1, h⟩
      · exact ih (p + 1) s h

/-- C5: throughout any execution of `find`, once the head lock has been
taken the set of locks held is never empty, never exceeds two, and when
two locks are held they guard adjacent nodes (positions `j` and
`j + 1`). -/
theorem find_lock_window (vals : List Int) (s : List Nat)
    (hs : s ∈ (states [] (traceFind vals).1).drop 1) :
    s ≠ [] ∧ s.length ≤ 2 ∧ (s.length = 2 → ∃ j, s = [j + 1, j]) := by
  have hok : HeldOk s := by
    rcases vals with _ | ⟨v, _ | ⟨w, rest⟩⟩
    · simp [traceFind, states] at hs
    · have he : (states [] (traceFind [v]).1).drop 1 = [[0]] := by
        simp [traceFind, states, applyEv]
      rw [he] at hs
      exact Or.inl ⟨0, by simpa using hs⟩
    · have he : (states [] (traceFind (v :: w :: rest)).1).drop 1
          = [0] :: states [1, 0] (traceLoop 0 rest).1 := by
        simp [traceFind, states, applyEv]
      rw [he] at hs
      rcases List.mem_cons.mp hs with h | h
      · exact Or.inl ⟨0, h⟩
      · exact traceLoop_states_ok rest 0 s h
  rcases hok with ⟨j, rfl⟩ | ⟨j, rfl⟩
  · exact ⟨by simp, by simp, by simp⟩
  · exact ⟨by simp, by simp, fun _ => ⟨j, rfl⟩⟩

/-- Witness for C5: during `find` on the list from `main`, the state
after the second lock is the adjacent pair of positions 1 and 0, and it
satisfies the window invariant. -/
theorem find_lock_window_witness :
    ([1, 0] : List Nat) ≠ [] ∧ ([1, 0] : List Nat).length ≤ 2 ∧
      (([1, 0] : List Nat).length = 2 → ∃ j, ([1, 0] : List Nat) = [j + 1, j]) :=
  find_lock_window [1, 2, 3, 4] [1, 0] (by decide)

lemma traceLoop_length : ∀ (rest : List Int) (p : Nat),
    (traceLoop p rest).1.length ≤ 2 * rest.length + 1 := by
  intro rest
  induction rest with
  | nil => intro p; simp [traceLoop]
  | cons u rest ih =>
    intro p
    by_cases h4 : u = 4
    · simp [traceLoop, h4]
      omega
    · have := ih (p + 1)
      simp only [traceLoop, h4, if_neg, not_false_iff, List.length_cons, List.length]
      simp only [List.length_cons] at this ⊢
      omega

lemma traceLoop_lock_mem : ∀ (rest : List Int) (p j : Nat),
    Ev.lock j ∈ (traceLoop p rest).1 → p + 2 ≤ j ∧ j ≤ p + 1 + rest.length := by
  intro rest
  induction rest with
  | nil => intro p j h; simp [traceLoop] at h
  | cons u rest ih =>
    intro p j h
    by_cases h4 : u = 4
    · simp [traceLoop, h4] at h
      simp only [List.length_cons]
      omega
    · simp only [traceLoop, h4, if_neg, not_false_iff, List.mem_cons] at h
      rcases h with h | h | h
      · cases h
      · have hj : j = p + 2 := by injection h
        simp [hj, List.length_cons]
        omega
      · have := ih (p + 1) j h
        simp [List.length_cons]
        omega

/-- C6: the traversal loop of `find` terminates on every finite list,
never going past the final node: the event trace is finite (at most
twice the list length) and every node it locks lies strictly inside the
list. -/
theorem find_traversal_bounded (vals : List Int) :
    (traceFind vals).1.length ≤ 2 * vals.length ∧
      ∀ j : Nat, Ev.lock j ∈ (traceFind vals).1 → j < vals.length := by
  rcases vals with _ | ⟨v, _ | ⟨w, rest⟩⟩
  · exact ⟨by simp [traceFind], fun j h => by simp [traceFind] at h⟩
  · constructor
    · simp [traceFind]
    · intro j h
      simp [traceFind] at h
      simp [h]
  · constructor
    · have := traceLoop_length rest 0
      simp only [traceFind, List.length_cons] at this ⊢
      omega
    · intro j h
      simp only [traceFind, List.mem_cons] at h
      rcases h with h | h | h
      · have hj : j = 0 := by injection h
        simp [hj, List.length_cons]
      · have hj : j = 1 := by injection h
        simp only [hj, List.length_cons]
        omega
      · have := (traceLoop_lock_mem rest 0 j h).2
        simp [List.length_cons]
        omega

/-- Witness for C6: on the list from `main`, position 3 is locked and is
strictly inside the four-element list. -/
theorem find_traversal_bounded_witness :
    Ev.lock 3 ∈ (traceFind [1, 2, 3, 4]).1 ∧ 3 < ([1, 2, 3, 4] : List Int).length :=
  ⟨by decide, (find_traversal_bounded [1, 2, 3, 4]).2 3 (by decide)⟩

lemma mem_locksOf (t : List Ev) (j : Nat) : j ∈ locksOf t ↔ Ev.lock j ∈ t := by
  unfold locksOf
  rw [List.mem_filterMap]
  constructor
  · rintro ⟨e, he, hf⟩
    cases e with
    | lock i =>
      simp only [Option.some.injEq] at hf
      subst hf
      exact he
    | unlock i => simp at hf
  · intro h
    exact ⟨Ev.lock j, h, rfl⟩

lemma traceLoop_locks_pairwise : ∀ (rest : List Int) (p : Nat),
    List.Pairwise (· < ·) (locksOf (traceLoop p rest).1) := by
  intro rest
  induction rest with
  | nil => intro p; simp [traceLoop, locksOf]
  | cons u rest ih =>
    intro p
    by_cases h4 : u = 4
    · simp [traceLoop, h4, locksOf]
    · have he : locksOf (traceLoop p (u :: rest)).1
          = (p + 2) :: locksOf (traceLoop (p + 1) rest).1 := by
        simp [traceLoop, h4, locksOf]
      rw [he, List.pairwise_cons]
      refine ⟨?_, ih (p + 1)⟩
      intro j hj
      have := (traceLoop_lock_mem rest (p + 1) j ((mem_locksOf _ _).mp hj)).1
      omega

/-- C9: within any single call, `find` acquires node locks in one fixed
direction — strictly increasing list order, head toward tail (the
sequence of locked positions is strictly increasing) — and any wait-for
relation in which every waiter's wanted lock is strictly beyond the
holder's (as monotone acquisition forces) admits no cycle, so no
deadlock can arise. -/
theorem find_lock_order_acyclic :
    (∀ vals : List Int, List.Pairwise (· < ·) (locksOf (traceFind vals).1)) ∧
      (∀ (w : Nat → Nat) (R : Nat → Nat → Prop),
        (∀ a b, R a b → w a < w b) → ∀ a, ¬ Relation.TransGen R a a) := by
  constructor
  · intro vals
    rcases vals with _ | ⟨v, _ | ⟨u, rest⟩⟩
    · simp [traceFind, locksOf]
    · simp [traceFind, locksOf]
    · have he : locksOf (traceFind (v :: u :: rest)).1
          = 0 :: 1 :: locksOf (traceLoop 0 rest).1 := by
        simp [traceFind, locksOf]
      rw [he, List.pairwise_cons, List.pairwise_cons]
      refine ⟨?_, ?_, traceLoop_locks_pairwise rest 0⟩
      · intro j hj
        rcases List.mem_cons.mp hj with h | h
        · omega
        · have := (traceLoop_lock_mem rest 0 j ((mem_locksOf _ _).mp h)).1
          omega
      · intro j hj
        have := (traceLoop_lock_mem rest 0 j ((mem_locksOf _ _).mp hj)).1
        omega
  · intro w R hR a hcyc
    have hmono : ∀ x y, Relation.TransGen R x y → w x < w y := by
      intro x y hxy
      induction hxy with
      | single h => exact hR _ _ h
      | tail h1 h2 ih => exact lt_trans ih (hR _ _ h2)
    exact absurd (hmono a a hcyc) (lt_irrefl _)

/-- Witness for C9: the lock sequence of `find` on the list from `main`
is strictly increasing, and the strict-order wait-for relation on two
threads has no cycle at thread 0. -/
theorem find_lock_order_acyclic_witness :
    List.Pairwise (· < ·) (locksOf (traceFind [1, 2, 3, 4]).1) ∧
      ¬ Relation.TransGen (fun a b : Nat => a < b) 0 0 :=
  ⟨find_lock_order_acyclic.1 [1, 2, 3, 4],
   find_lock_order_acyclic.2 id (fun a b => a < b) (fun _ _ h => h) 0⟩

/-- Modelled from the spec: the repository's source contains no
`contains`, `insert` or `remove` — `find`'s doc comment names them as
its callers but they are absent from `src/` — so the traversal of spec
section 4.1 is modelled here at the level of the list of keys (head
first, sentinels included; the spec says values are irrelevant).
`findS key` walks a `pred`/`curr` pair forward while `curr < key`
(step 3) and returns the bracketing pair of keys; `none` stands for a
walk that would run past the end, which the tail sentinel rules out. -/
def findS (key : Int) : List Int → Option (Int × Int)
  | [] => none
  | [_] => none
  | p :: c :: rest => if c < key then findS key (c :: rest) else some (p, c)

/-- Modelled from the spec (section 4.2; `contains` is absent from
`src/`): call `find`, check `curr.key == key`, release both locks,
return the boolean. -/
def containsS (key : Int) (vals : List Int) : Bool :=
  match findS key vals with
  | some (_, c) => decide (c = key)
  | none => false

/-- Modelled from the spec (section 4.3; `insert` is absent from
`src/`): call `find`; if `curr.key == key` return `false` (key already
present, no mutation); otherwise splice a new node between `pred` and
`curr` and return `true`.  The first two branches need no recursion and
are unreachable when the sentinels are in place. -/
def insertS (key : Int) : List Int → List Int × Bool
  | [] => ([], false)
  | [x] => ([x], false)
  | p :: c :: rest =>
      if c < key then
        (p :: (insertS key (c :: rest)).1, (insertS key (c :: rest)).2)
      else if c = key then (p :: c :: rest, false)
      else (p :: key :: c :: rest, true)

/-- Modelled from the spec (section 4.4; `remove` is absent from
`src/`): call `find`; if `curr.key != key` return `false` (no-op);
otherwise unlink `curr` (redirect `pred.next` to `curr.next`) and
return `true`. -/
def removeS (key : Int) : List Int → List Int × Bool
  | [] => ([], false)
  | [x] => ([x], false)
  | p :: c :: rest =>
      if c < key then
        (p :: (removeS key (c :: rest)).1, (removeS key (c :: rest)).2)
      else if c = key then (p :: rest, true)
      else (p :: c :: rest, false)

lemma containsS_iff : ∀ (t : List Int) (p key : Int),
    List.Pairwise (· < ·) (p :: t) → p < key → (∃ x ∈ t, key ≤ x) →
    (containsS key (p :: t) = true ↔ key ∈ t) := by
  intro t
  induction t with
  | nil =>
    intro p key _ _ ht
    obtain ⟨x, hx, _⟩ := ht
    exact absurd hx (List.not_mem_nil x)
  | cons c rest ih =>
    intro p key hs hp ht
    have hs2 : List.Pairwise (· < ·) (c :: rest) := (List.pairwise_cons.mp hs).2
    by_cases hc : c < key
    · have heq : containsS key (p :: c :: rest) = containsS key (c :: rest) := by
        simp [containsS, findS, hc]
      have ht2 : ∃ x ∈ rest, key ≤ x := by
        obtain ⟨x, hx, hkx⟩ := ht
        rcases List.mem_cons.mp hx with h | h
        · subst h; omega
        · exact ⟨x, h, hkx⟩
      rw [heq, ih c key hs2 hc ht2, List.mem_cons]
      constructor
      · exact fun h => Or.inr h
      · rintro (h | h)
        · omega
        · exact h
    · by_cases he : c = key
      · subst he
        simp [containsS, findS, hc]
      · have hkc : key < c := by omega
        constructor
        · intro h
          simp [containsS, findS, hc] at h
          omega
        · intro h
          rcases List.mem_cons.mp h with h | h
          · omega
          · have := (List.pairwise_cons.mp hs2).1 key h
            omega

lemma insertS_false_iff : ∀ (t : List Int) (p key : Int),
    List.Pairwise (· < ·) (p :: t) → p < key → (∃ x ∈ t, key ≤ x) →
    ((insertS key (p :: t)).2 = false ↔ key ∈ t) := by
  intro t
  induction t with
  | nil =>
    intro p key _ _ ht
    obtain ⟨x, hx, _⟩ := ht
    exact absurd hx (List.not_mem_nil x)
  | cons c rest ih =>
    intro p key hs hp ht
    have hs2 : List.Pairwise (· < ·) (c :: rest) := (List.pairwise_cons.mp hs).2
    by_cases hc : c < key
    · have heq : (insertS key (p :: c :: rest)).2 = (insertS key (c :: rest)).2 := by
        simp [insertS, hc]
      have ht2 : ∃ x ∈ rest, key ≤ x := by
        obtain ⟨x, hx, hkx⟩ := ht
        rcases List.mem_cons.mp hx with h | h
        · subst h; omega
        · exact ⟨x, h, hkx⟩
      rw [heq, ih c key hs2 hc ht2, List.mem_cons]
      constructor
      · exact fun h => Or.inr h
      · rintro (h | h)
        · omega
        · exact h
    · by_cases he : c = key
      · subst he
        simp [insertS, hc]
      · have hkc : key < c := by omega
        have heq : (insertS key (p :: c :: rest)).2 = true := by
          simp [insertS, hc, he]
        rw [heq]
        constructor
        · intro h; cases h
        · intro h
          rcases List.mem_cons.mp h with h | h
          · omega
          · have := (List.pairwise_cons.mp hs2).1 key h
            omega

lemma removeS_true_iff : ∀ (t : List Int) (p key : Int),
    List.Pairwise (· < ·) (p :: t) → p < key → (∃ x ∈ t, key ≤ x) →
    ((removeS key (p :: t)).2 = true ↔ key ∈ t) := by
  intro t
  induction t with
  | nil =>
    intro p key _ _ ht
    obtain ⟨x, hx, _⟩ := ht
    exact absurd hx (List.not_mem_nil x)
  | cons c rest ih =>
    intro p key hs hp ht
    have hs2 : List.Pairwise (· < ·) (c :: rest) := (List.pairwise_cons.mp hs).2
    by_cases hc : c < key
    · have heq : (removeS key (p :: c :: rest)).2 = (removeS key (c :: rest)).2 := by
        simp [removeS, hc]
      have ht2 : ∃ x ∈ rest, key ≤ x := by
        obtain ⟨x, hx, hkx⟩ := ht
        rcases List.mem_cons.mp hx with h | h
        · subst h; omega
        · exact ⟨x, h, hkx⟩
      rw [heq, ih c key hs2 hc ht2, List.mem_cons]
      constructor
      · exact fun h => Or.inr h
      · rintro (h | h)
        · omega
        · exact h
    · by_cases he : c = key
      · subst he
        simp [removeS, hc]
      · have hkc : key < c := by omega
        have heq : (removeS key (p :: c :: rest)).2 = false := by
          simp [removeS, hc, he]
        rw [heq]
        constructor
        · intro h; cases h
        · intro h
          rcases List.mem_cons.mp h with h | h
          · omega
          · have := (List.pairwise_cons.mp hs2).1 key h
            omega

/-- C8: the three public operations of the design — on a sorted chain
`p :: t` whose head sentinel `p` is below the key and whose tail
sentinel keeps some element of `t` at or above the key — have the
advertised boolean semantics: `contains` answers membership, `insert`
returns `false` exactly when the key is already present, and `remove`
returns `false` exactly when the key is absent.  The operations are
modelled from the spec because `src/` does not define them. -/
theorem publicOps_bool_semantics (key p : Int) (t : List Int)
    (hs : List.Pairwise (· < ·) (p :: t)) (hp : p < key)
    (ht : ∃ x ∈ t, key ≤ x) :
    (containsS key (p :: t) = true ↔ key ∈ t) ∧
      ((insertS key (p :: t)).2 = false ↔ key ∈ t) ∧
      ((removeS key (p :: t)).2 = false ↔ key ∉ t) := by
  refine ⟨containsS_iff t p key hs hp ht, insertS_false_iff t p key hs hp ht, ?_⟩
  have h := removeS_true_iff t p key hs hp ht
  simp [← h]

/-- Witness for C8: key 2 on the sorted chain with sentinels 0 and 10
and members 1, 2. -/
theorem publicOps_bool_semantics_witness :
    (containsS 2 [0, 1, 2, 10] = true ↔ (2 : Int) ∈ [1, 2, 10]) ∧
      ((insertS 2 [0, 1, 2, 10]).2 = false ↔ (2 : Int) ∈ [1, 2, 10]) ∧
      ((removeS 2 [0, 1, 2, 10]).2 = false ↔ (2 : Int) ∉ [1, 2, 10]) :=
  publicOps_bool_semantics 2 0 [1, 2, 10] (by decide) (by decide) (by decide)
